import Mathlib

/-!
# Verification of the `mcgilmore/chess` rules engine

Shallow embedding of the core of `src/main.rs` (the chess rules engine and
position model): board representation, move validation, move execution as
performed by the mouse handler, check detection, FEN (de)serialization and
the heuristic move chooser.  Rendering-only state (`selected`, `valid_moves`,
`show_possible_moves`, `pieces`, `needs_redraw`, `tile_size`,
`has_ai_opponent`) carries no rules-engine semantics and is omitted from the
embedded `ChessGame` record; every other field and every function body is
translated statement by statement from the Rust source.

Machine integers: board coordinates are `usize` values that the source keeps
in `0..8` (all indexing is guarded); they are modelled as `Nat`.  Signed
arithmetic (`isize` casts) is modelled with `Int`.  The `u32` clocks are
modelled as `Nat` with an explicit `< 2^32` bound where the source parses
them.  `u8`/`usize` wrapping subtraction in `algebraic_to_square` is modelled
with explicit `% 256` / `% 2^64` arithmetic.
-/

namespace Chess

inductive PieceColor where
  | White
  | Black
deriving DecidableEq, Repr

inductive PieceType where
  | Pawn
  | Knight
  | Bishop
  | Rook
  | Queen
  | King
deriving DecidableEq, Repr

structure Piece where
  piece_type : PieceType
  color : PieceColor
  has_moved : Bool
deriving DecidableEq, Repr

/-- A square is `Square { occupant: Option<Piece> }` in the source; the
wrapper struct is elided. -/
abbrev Board := List (List (Option Piece))

/-- `squares[r][c]` read.  All reads performed by the source are guarded to
`r, c < 8`, where this agrees with Rust indexing into the 8×8 array. -/
def pieceAt (b : Board) (r c : Nat) : Option Piece :=
  (b.getD r []).getD c none

/-- `squares[r][c] = v` write (out-of-range writes never occur on the 8×8
boards the source manipulates; `List.set` is then exactly array update). -/
def setSquare (b : Board) (r c : Nat) (v : Option Piece) : Board :=
  b.set r ((b.getD r []).set c v)

/-- The rules-engine state of `ChessGame` (UI-only fields omitted, see
module docstring).  `castling_rights` is the source's `String`, kept as a
list of characters. -/
structure ChessGame where
  board : Board
  turn : PieceColor
  castling_rights : List Char
  en_passant_target : Option (Nat × Nat)
  halfmove_clock : Nat
  fullmove_number : Nat
  promotion_square : Option (Nat × Nat)
deriving DecidableEq

def oppositeColor : PieceColor → PieceColor
  | PieceColor.White => PieceColor.Black
  | PieceColor.Black => PieceColor.White

/-- Row-major enumeration of the 64 squares, the order of every
`for row in 0..8 { for col in 0..8 { ... } }` scan in the source. -/
def squaresList : List (Nat × Nat) :=
  ((List.range 8).map (fun r => (List.range 8).map (fun c => (r, c)))).flatten

/-- `ChessGame::path_is_clear` walks from `start + step` towards `end` with
`step = (Δrow.signum, Δcol.signum)` and reports whether every strictly
intermediate square is empty.  The source's `while` loop is modelled with a
fuel of 8: every call site passes aligned on-board squares, for which the
walk reaches `end` in at most 7 steps, so the fuel is never exhausted. -/
def pathWalk (b : Board) (er ec rs cs : Int) : Nat → Int → Int → Bool
  | 0, _, _ => true
  | fuel + 1, r, c =>
    if r = er ∧ c = ec then true
    else if (pieceAt b r.toNat c.toNat).isSome then false
    else pathWalk b er ec rs cs fuel (r + rs) (c + cs)

def path_is_clear (b : Board) (s e : Nat × Nat) : Bool :=
  let rs : Int := ((e.1 : Int) - (s.1 : Int)).sign
  let cs : Int := ((e.2 : Int) - (s.2 : Int)).sign
  pathWalk b (e.1 : Int) (e.2 : Int) rs cs 8 ((s.1 : Int) + rs) ((s.2 : Int) + cs)

/-- `ChessGame::is_square_attacked(square, color)`: true iff some piece of
the color opposite to `color` has attacking geometry onto `square`. -/
def is_square_attacked (g : ChessGame) (sq : Nat × Nat) (color : PieceColor) : Bool :=
  let row : Int := (sq.1 : Int)
  let col : Int := (sq.2 : Int)
  squaresList.any fun rc =>
    match pieceAt g.board rc.1 rc.2 with
    | none => false
    | some piece =>
      if piece.color = color then false
      else
        let r : Int := (rc.1 : Int)
        let c : Int := (rc.2 : Int)
        match piece.piece_type with
        | PieceType.Pawn =>
          let d : Int := if piece.color = PieceColor.White then -1 else 1
          decide ((r + d = row ∧ c - 1 = col) ∨ (r + d = row ∧ c + 1 = col))
        | PieceType.Knight =>
          ([(-2, -1), (-2, 1), (2, -1), (2, 1), (-1, -2), (-1, 2), (1, -2), (1, 2)]
              : List (Int × Int)).any
            fun dd => decide (r + dd.1 = row ∧ c + dd.2 = col)
        | PieceType.Bishop =>
          decide ((row - r).natAbs = (col - c).natAbs) &&
            path_is_clear g.board (rc.1, rc.2) sq
        | PieceType.Rook =>
          decide (rc.1 = sq.1 ∨ rc.2 = sq.2) && path_is_clear g.board (rc.1, rc.2) sq
        | PieceType.Queen =>
          decide ((row - r).natAbs = (col - c).natAbs ∨ rc.1 = sq.1 ∨ rc.2 = sq.2) &&
            path_is_clear g.board (rc.1, rc.2) sq
        | PieceType.King =>
          decide ((row - r).natAbs ≤ 1 ∧ (col - c).natAbs ≤ 1)

/-- `ChessGame::validate_pawn_move`. -/
def validate_pawn_move (g : ChessGame) (s e : Nat × Nat) (color : PieceColor) : Bool :=
  let direction : Int := if color = PieceColor.White then -1 else 1
  let sr : Int := (s.1 : Int)
  let sc : Int := (s.2 : Int)
  let er : Int := (e.1 : Int)
  let ec : Int := (e.2 : Int)
  if er = sr + direction ∧ ec = sc then
    (pieceAt g.board e.1 e.2).isNone
  else if er = sr + 2 * direction ∧ ec = sc then
    match pieceAt g.board s.1 s.2 with
    | some piece =>
      !piece.has_moved && (pieceAt g.board (sr + direction).toNat s.2).isNone &&
        (pieceAt g.board e.1 e.2).isNone
    | none => false
  else if er = sr + direction ∧ (ec = sc + 1 ∨ ec = sc - 1) then
    (pieceAt g.board e.1 e.2).isSome ||
      (match g.en_passant_target with
       | some t => decide ((e.1, e.2) = t)
       | none => false)
  else false

/-- `ChessGame::validate_knight_move` (pure geometry, board unused). -/
def validate_knight_move (s e : Nat × Nat) : Bool :=
  let rd := ((s.1 : Int) - (e.1 : Int)).natAbs
  let cd := ((s.2 : Int) - (e.2 : Int)).natAbs
  decide ((rd = 2 ∧ cd = 1) ∨ (rd = 1 ∧ cd = 2))

/-- `ChessGame::validate_bishop_move`. -/
def validate_bishop_move (g : ChessGame) (s e : Nat × Nat) : Bool :=
  let rd := ((s.1 : Int) - (e.1 : Int)).natAbs
  let cd := ((s.2 : Int) - (e.2 : Int)).natAbs
  if rd = cd then path_is_clear g.board s e else false

/-- `ChessGame::validate_rook_move`. -/
def validate_rook_move (g : ChessGame) (s e : Nat × Nat) : Bool :=
  if s.1 = e.1 ∨ s.2 = e.2 then path_is_clear g.board s e else false

/-- `ChessGame::validate_queen_move`. -/
def validate_queen_move (g : ChessGame) (s e : Nat × Nat) : Bool :=
  validate_rook_move g s e || validate_bishop_move g s e

/-- Iteration of the Rust range `a..b` over `isize` (ascending, empty when
`a ≥ b` — note the queen-side castling call produces the empty range). -/
def intRange (a b : Int) : List Int :=
  (List.range (b - a).toNat).map fun i => a + (i : Int)

/-- `ChessGame::validate_king_castling`.  Note the faithful reproduction of
the source's checks: castling-rights character, emptiness of the squares in
`start_col+step .. end_col`, and the rook on the corner — and the absence of
any attacked-square check. -/
def validate_king_castling (g : ChessGame) (s e : Nat × Nat) : Bool :=
  if s.1 = e.1 ∧ ((e.2 : Int) - (s.2 : Int)).natAbs = 2 then
    let is_king_side := decide (s.2 < e.2)
    let castling_right : Char :=
      if g.turn = PieceColor.White then (if is_king_side then 'K' else 'Q')
      else (if is_king_side then 'k' else 'q')
    if castling_right ∈ g.castling_rights then
      let rook_col : Nat := if is_king_side then 7 else 0
      let step : Int := if is_king_side then 1 else -1
      if (intRange ((s.2 : Int) + step) (e.2 : Int)).any
          (fun c => (pieceAt g.board s.1 c.toNat).isSome) then false
      else
        match pieceAt g.board s.1 rook_col with
        | some piece =>
          decide (piece.piece_type = PieceType.Rook ∧ piece.color = g.turn)
        | none => false
    else false
  else false

/-- The simulated naïve application used by `validate_move` and
`validate_king_move`: take the occupant of `start` (the source `unwrap`s —
all call sites have checked the occupant exists) and place it on `end`. -/
def simMove (g : ChessGame) (s e : Nat × Nat) : ChessGame :=
  match pieceAt g.board s.1 s.2 with
  | some p => { g with board := setSquare (setSquare g.board s.1 s.2 none) e.1 e.2 (some p) }
  | none => g

/-- `ChessGame::validate_king_move`: a one-square move is simulated and
rejected if the destination is attacked; otherwise castling is tried. -/
def validate_king_move (g : ChessGame) (s e : Nat × Nat) : Bool :=
  let rd := ((s.1 : Int) - (e.1 : Int)).natAbs
  let cd := ((s.2 : Int) - (e.2 : Int)).natAbs
  if rd ≤ 1 ∧ cd ≤ 1 then
    if is_square_attacked (simMove g s e) e g.turn then false else true
  else if validate_king_castling g s e then true
  else false

/-- `ChessGame::is_king_in_check`, parametrized by the `validate_move`
closure it calls (the source's mutual recursion is closed below with fuel).
`find_king` is inlined as the row-major `find?`; the source `unwrap`s the
result — every call site has a king of the requested color on the board
(the `none` branch is unreachable there). -/
def isKingInCheckWith (validate : ChessGame → Nat × Nat → Nat × Nat → Bool)
    (g : ChessGame) (color : PieceColor) : Bool :=
  match squaresList.find? (fun sq =>
      match pieceAt g.board sq.1 sq.2 with
      | some p => decide (p.piece_type = PieceType.King ∧ p.color = color)
      | none => false) with
  | none => false
  | some kingSq =>
    squaresList.any fun rc =>
      match pieceAt g.board rc.1 rc.2 with
      | some piece => decide (piece.color ≠ color) && validate g rc kingSq
      | none => false

/-- The body of `ChessGame::validate_move`, parametrized by the
`is_king_in_check` it invokes on the simulated position. -/
def validateMoveBody (kic : ChessGame → PieceColor → Bool)
    (g : ChessGame) (s e : Nat × Nat) : Bool :=
  if 8 ≤ s.1 ∨ 8 ≤ s.2 ∨ 8 ≤ e.1 ∨ 8 ≤ e.2 then false
  else
    match pieceAt g.board s.1 s.2 with
    | none => false
    | some piece =>
      if piece.color ≠ g.turn then false
      else if (match pieceAt g.board e.1 e.2 with
               | some occ => decide (occ.color = piece.color)
               | none => false) then false
      else
        let is_valid : Bool :=
          match piece.piece_type with
          | PieceType.Pawn => validate_pawn_move g s e piece.color
          | PieceType.Knight => validate_knight_move s e
          | PieceType.Bishop => validate_bishop_move g s e
          | PieceType.Rook => validate_rook_move g s e
          | PieceType.Queen => validate_queen_move g s e
          | PieceType.King => validate_king_move g s e
        if is_valid then
          if kic (simMove g s e) g.turn then false else true
        else false

/-- Fueled closure of the mutual recursion
`validate_move → is_king_in_check → validate_move`.  In the source the
recursion terminates because the inner `validate_move` calls made by
`is_king_in_check` are on pieces whose color differs from `turn` and return
at the turn check before simulating; hence the call tree has depth 2, and
`validateMoveFuel 2` computes exactly the source's `validate_move`
(`validateMoveFuel_stable` below proves fuel-independence beyond 2). -/
def validateMoveFuel : Nat → ChessGame → Nat × Nat → Nat × Nat → Bool
  | 0, _, _, _ => false
  | fuel + 1, g, s, e => validateMoveBody (isKingInCheckWith (validateMoveFuel fuel)) g s e

/-- `ChessGame::validate_move`. -/
def validate_move (g : ChessGame) (s e : Nat × Nat) : Bool :=
  validateMoveFuel 2 g s e

/-- `ChessGame::is_king_in_check`. -/
def is_king_in_check (g : ChessGame) (color : PieceColor) : Bool :=
  isKingInCheckWith validate_move g color

/-- A mover of the wrong color is rejected at the turn check, for any fuel. -/
theorem validateMoveFuel_turn_mismatch (n : Nat) (g : ChessGame) (s e : Nat × Nat)
    (p : Piece) (hp : pieceAt g.board s.1 s.2 = some p) (hc : p.color ≠ g.turn) :
    validateMoveFuel (n + 1) g s e = false := by
  simp only [validateMoveFuel, validateMoveBody, hp]
  split
  · rfl
  · simp [hc]

/-- The self-check test inside `validate_move` is dead code: when
`is_king_in_check` is asked about the side to move, every candidate attacker
has the opposite color and fails the validator's turn check. -/
theorem isKingInCheck_on_turn_false (n : Nat) (g : ChessGame) (color : PieceColor)
    (hc : g.turn = color) :
    isKingInCheckWith (validateMoveFuel (n + 1)) g color = false := by
  unfold isKingInCheckWith
  split
  · rfl
  · rename_i kingSq _
    rw [List.any_eq_false]
    intro rc _
    cases hpc : pieceAt g.board rc.1 rc.2 with
    | none => simp
    | some piece =>
      by_cases hcol : piece.color = color
      · simp [hcol]
      · have hv : validateMoveFuel (n + 1) g rc kingSq = false :=
          validateMoveFuel_turn_mismatch n g rc kingSq piece hpc (by rw [hc]; exact hcol)
        simp [hv]

/-- `ChessGame::update_castling_rights(start)`: reads the piece at `start`
on the given board and strips rights accordingly (`String::replace` of a
single character is `List.filter`).  When no piece sits on `start` the
rights are returned unchanged — which is what happens at the executor's
call site, where the mover has already been taken off `start`. -/
def update_castling_rights (b : Board) (rights : List Char) (start : Nat × Nat) : List Char :=
  match pieceAt b start.1 start.2 with
  | none => rights
  | some piece =>
    let r1 :=
      if piece.piece_type = PieceType.King then
        if piece.color = PieceColor.White then
          (rights.filter (fun ch => ch ≠ 'K')).filter (fun ch => ch ≠ 'Q')
        else
          (rights.filter (fun ch => ch ≠ 'k')).filter (fun ch => ch ≠ 'q')
      else rights
    if piece.piece_type = PieceType.Rook then
      if piece.color = PieceColor.White then
        if start = (7, 0) then r1.filter (fun ch => ch ≠ 'Q')
        else if start = (7, 7) then r1.filter (fun ch => ch ≠ 'K')
        else r1
      else
        if start = (0, 0) then r1.filter (fun ch => ch ≠ 'q')
        else if start = (0, 7) then r1.filter (fun ch => ch ≠ 'k')
        else r1
    else r1

/-- `ChessGame::perform_castling`: move the rook next to the king.  The
source `take`s the rook square's `Option` and assigns it verbatim. -/
def perform_castling (b : Board) (s e : Nat × Nat) : Board :=
  let is_king_side := decide (s.2 < e.2)
  let rook_start_col : Nat := if is_king_side then 7 else 0
  let rook_end_col : Nat := if is_king_side then e.2 - 1 else e.2 + 1
  let rook := pieceAt b s.1 rook_start_col
  setSquare (setSquare b s.1 rook_start_col none) s.1 rook_end_col rook

/-- The move-execution branch of `ChessGame::mouse_button_down_event`
(lines 1305–1380): everything that happens after `validate_move(selected,
(row, col))` succeeds, in the source's statement order.  The caller is the
click handler, so no legality is re-checked here. -/
def executeMove (g : ChessGame) (sel tgt : Nat × Nat) : ChessGame :=
  match pieceAt g.board sel.1 sel.2 with
  | none => g
  | some p0 =>
    let piece : Piece := { p0 with has_moved := true }
    let b2 := setSquare (setSquare g.board sel.1 sel.2 none) tgt.1 tgt.2 (some piece)
    let ep1 : Option (Nat × Nat) :=
      if piece.piece_type = PieceType.Pawn ∧ ((sel.1 : Int) - (tgt.1 : Int)).natAbs = 2 then
        some ((sel.1 + tgt.1) / 2, tgt.2)
      else none
    let b3 :=
      if piece.piece_type = PieceType.Pawn ∧ some tgt = ep1 then
        let captured_pawn_row :=
          if piece.color = PieceColor.White then tgt.1 + 1 else tgt.1 - 1
        setSquare b2 captured_pawn_row tgt.2 none
      else b2
    let promo :=
      if piece.piece_type = PieceType.Pawn ∧
          tgt.1 = (if piece.color = PieceColor.White then 0 else 7) then some tgt
      else g.promotion_square
    let rights :=
      if piece.piece_type = PieceType.Rook ∨ piece.piece_type = PieceType.King then
        update_castling_rights b3 g.castling_rights sel
      else g.castling_rights
    let clock :=
      if piece.piece_type = PieceType.Pawn ∨ (pieceAt b3 tgt.1 tgt.2).isSome then 0
      else g.halfmove_clock + 1
    let full :=
      if g.turn = PieceColor.Black then g.fullmove_number + 1 else g.fullmove_number
    let b4 :=
      if piece.piece_type = PieceType.King ∧ ((sel.2 : Int) - (tgt.2 : Int)).natAbs = 2 then
        perform_castling b3 sel tgt
      else b3
    { board := b4
      turn := oppositeColor g.turn
      castling_rights := rights
      en_passant_target := ep1
      halfmove_clock := clock
      fullmove_number := full
      promotion_square := promo }

/-- `ChessGame::generate_valid_moves(color)`, in the source's scan order. -/
def generate_valid_moves (g : ChessGame) (color : PieceColor) :
    List ((Nat × Nat) × (Nat × Nat)) :=
  squaresList.flatMap fun s =>
    match pieceAt g.board s.1 s.2 with
    | some piece =>
      if piece.color = color then
        (squaresList.filter (fun e => validate_move g s e)).map fun e => (s, e)
      else []
    | none => []

/-- `ChessGame::is_file_open`. -/
def is_file_open (g : ChessGame) (file : Nat) : Bool :=
  (List.range 8).all fun r => (pieceAt g.board r file).isNone

/-- `ChessGame::is_diagonal_open`. -/
def is_diagonal_open (g : ChessGame) (sq : Nat × Nat) : Bool :=
  (List.range 7).all fun i0 =>
    let i : Int := (i0 : Int) + 1
    let r : Int := (sq.1 : Int)
    let c : Int := (sq.2 : Int)
    ([(r - i, c - i), (r - i, c + i), (r + i, c - i), (r + i, c + i)]
        : List (Int × Int)).all
      fun p =>
        if 0 ≤ p.1 ∧ p.1 < 8 ∧ 0 ≤ p.2 ∧ p.2 < 8 then
          (pieceAt g.board p.1.toNat p.2.toNat).isNone
        else true

/-- `ChessGame::calculate_positional_value`. -/
def calculate_positional_value (g : ChessGame) (s e : Nat × Nat) (moving_piece : Piece) :
    Int :=
  match moving_piece.piece_type with
  | PieceType.Pawn =>
    let direction : Int := if moving_piece.color = PieceColor.White then -1 else 1
    let advancement := ((e.1 : Int) - (s.1 : Int)) * direction
    let central_bonus : Int := if e.2 = 3 ∨ e.2 = 4 then 1 else 0
    advancement + central_bonus
  | PieceType.Knight => if (e.1 = 3 ∨ e.1 = 4) ∧ (e.2 = 3 ∨ e.2 = 4) then 2 else 0
  | PieceType.Bishop => if is_diagonal_open g e then 2 else 0
  | PieceType.Rook => if is_file_open g e.2 then 3 else 0
  | PieceType.Queen => if (e.1 = 3 ∨ e.1 = 4) ∧ (e.2 = 3 ∨ e.2 = 4) then 1 else 0
  | PieceType.King => if is_square_attacked g e moving_piece.color then -10 else 0

def pieceMaterial : PieceType → Int
  | PieceType.Pawn => 1
  | PieceType.Knight => 3
  | PieceType.Bishop => 3
  | PieceType.Rook => 5
  | PieceType.Queen => 9
  | PieceType.King => 1000

/-- `ChessGame::score_move`.  The source `unwrap`s the occupant of `start`
(every call site passes a generated valid move, whose start is occupied);
the `getD` default is never reached there.  Note the source reads the start
occupant a second time for `moving_piece_value` with a 0 fallback. -/
def score_move (g : ChessGame) (s e : Nat × Nat) : Int :=
  let moving_piece :=
    (pieceAt g.board s.1 s.2).getD ⟨PieceType.Pawn, PieceColor.White, false⟩
  let capture_value : Int :=
    match pieceAt g.board e.1 e.2 with
    | some piece => pieceMaterial piece.piece_type
    | none => 0
  let moving_piece_value : Int :=
    match pieceAt g.board s.1 s.2 with
    | some piece => pieceMaterial piece.piece_type
    | none => 0
  let king_penalty : Int := if moving_piece.piece_type = PieceType.King then -5 else 0
  let development_bonus : Int :=
    if (moving_piece.piece_type = PieceType.Knight ∨
        moving_piece.piece_type = PieceType.Bishop) ∧ (s.1 = 0 ∨ s.1 = 7) then 3
    else if moving_piece.piece_type = PieceType.Pawn ∧ (e.1 = 2 ∨ e.1 = 5) then 1
    else 0
  let positional_value := calculate_positional_value g s e moving_piece
  capture_value + moving_piece_value + king_penalty + development_bonus + positional_value

/-- One step of `Iterator::max_by_key`: keep the new element on ties, so the
last maximal element wins, as Rust documents. -/
def maxStep {α : Type} (f : α → Int) (acc : Option α) (x : α) : Option α :=
  match acc with
  | none => some x
  | some b => if f b ≤ f x then some x else some b

def maxByLast {α : Type} (f : α → Int) (l : List α) : Option α :=
  l.foldl (maxStep f) none

/-- `ChessGame::choose_ai_move`: score every generated move and take the
`max_by_key` over the scores.  The source maps each move to a
`(start, end, score)` triple, maximizes by the third component and projects
back; this is `maxByLast` keyed by `score_move` over the same list. -/
def choose_ai_move (g : ChessGame) : Option ((Nat × Nat) × (Nat × Nat)) :=
  maxByLast (fun m => score_move g m.1 m.2) (generate_valid_moves g g.turn)

/-! ## FEN codec

Strings are modelled as `List Char`.  Whitespace splitting models
`str::split_whitespace` restricted to the ASCII whitespace characters (the
only ones FEN strings contain). -/

def isWs (c : Char) : Bool :=
  decide (c = ' ' ∨ c = '\t' ∨ c = '\n' ∨ c = '\r')

def splitWsAux : List Char → List Char → List (List Char)
  | [], cur => if cur = [] then [] else [cur.reverse]
  | c :: rest, cur =>
    if isWs c then
      if cur = [] then splitWsAux rest [] else cur.reverse :: splitWsAux rest []
    else splitWsAux rest (c :: cur)

def splitWs (s : List Char) : List (List Char) := splitWsAux s []

/-- `str::split('/')` (keeps empty segments, `n` separators give `n+1`
segments). -/
def splitSlash : List Char → List (List Char)
  | [] => [[]]
  | c :: rest =>
    match splitSlash rest with
    | g :: t => if c = '/' then [] :: g :: t else (c :: g) :: t
    | [] => [[c]]

def isDigitCh (c : Char) : Bool := decide ('0' ≤ c ∧ c ≤ '9')

/-- `char::to_digit(10)`. -/
def digitVal? (c : Char) : Option Nat :=
  if '0' ≤ c ∧ c ≤ '9' then some (c.toNat - 48) else none

/-- Decimal rendering (`usize::to_string` / `u32::to_string`), written with
structural fuel so it reduces definitionally; `n + 1` units of fuel always
suffice. -/
def natToCharsGo : Nat → Nat → List Char → List Char
  | 0, _, acc => acc
  | fuel + 1, n, acc =>
    if n < 10 then Nat.digitChar n :: acc
    else natToCharsGo fuel (n / 10) (Nat.digitChar (n % 10) :: acc)

def natToChars (n : Nat) : List Char := natToCharsGo (n + 1) n []

def digitsVal (l : List Char) : Nat :=
  l.foldl (fun a c => 10 * a + (c.toNat - 48)) 0

/-- Strip the optional leading `+` sign accepted by `u32::from_str`. -/
def stripPlus : List Char → List Char
  | [] => []
  | c :: r => if c = '+' then r else c :: r

/-- `str::parse::<u32>()` as an `Option`: optional leading `+`, one or more
decimal digits, value within `u32` range. -/
def parseU32 (s : List Char) : Option Nat :=
  let t := stripPlus s
  if t ≠ [] ∧ t.all isDigitCh then
    if digitsVal t < 4294967296 then some (digitsVal t) else none
  else none

/-- `char_to_piece`. -/
def char_to_piece (ch : Char) : Option Piece :=
  let color := if ch.isUpper then PieceColor.White else PieceColor.Black
  let ty? : Option PieceType :=
    match ch.toLower with
    | 'p' => some PieceType.Pawn
    | 'n' => some PieceType.Knight
    | 'b' => some PieceType.Bishop
    | 'r' => some PieceType.Rook
    | 'q' => some PieceType.Queen
    | 'k' => some PieceType.King
    | _ => none
  ty?.map fun ty => ⟨ty, color, false⟩

/-- `piece_to_fen_char`. -/
def piece_to_fen_char (piece : Piece) : Char :=
  let ch : Char :=
    match piece.piece_type with
    | PieceType.Pawn => 'p'
    | PieceType.Knight => 'n'
    | PieceType.Bishop => 'b'
    | PieceType.Rook => 'r'
    | PieceType.Queen => 'q'
    | PieceType.King => 'k'
  if piece.color = PieceColor.White then ch.toUpper else ch

/-- `square_to_algebraic`.  `row ≤ 7` at every call site, so the `u8`
subtraction `8 - row` never underflows and `b'a' + col` never overflows. -/
def square_to_algebraic (row col : Nat) : List Char :=
  Char.ofNat (97 + col) :: natToChars (8 - row)

/-- `algebraic_to_square`.  `file as u8` truncates to a byte and
`wrapping_sub(b'a')` wraps mod 256; `8 - rank` is a `usize` subtraction,
modelled with the release-profile wrapping semantics mod `2^64` (for the
ranks `1..=8` appearing in well-formed squares it is plain subtraction). -/
def algebraic_to_square (s : List Char) : Option (Nat × Nat) :=
  match s with
  | [f, rk] =>
    match digitVal? rk with
    | none => none
    | some rank =>
      let col := (f.toNat % 256 + 256 - 97) % 256
      let row := (8 + 18446744073709551616 - rank) % 18446744073709551616
      if col < 8 ∧ row < 8 then some (row, col) else none
  | _ => none

/-- Outcome of parsing one FEN rank group (building `squares[row]`).
`panicked` models the Rust index-out-of-bounds panic on a write at
`col ≥ 8`. -/
inductive RankOut where
  | ok (row : List (Option Piece))
  | err (e : Char)
  | panicked
deriving DecidableEq

/-- The error cases of `ChessGame::from_fen`, abstracting the message
strings of the source (each constructor corresponds to one `Err(...)`). -/
inductive FenErr where
  | missingFields      -- "Invalid FEN: Missing fields"
  | badRowCount        -- "Invalid FEN: Incorrect number of rows"
  | rowLenMismatch     -- "Invalid FEN: Row length mismatch"
  | unknownPiece (c : Char) -- "Invalid FEN: Unknown piece '<c>'"
  | badColor           -- "Invalid FEN: Invalid active color"
  | badHalfmove        -- "Invalid FEN: Invalid halfmove clock"
  | badFullmove        -- "Invalid FEN: Invalid fullmove number"
deriving DecidableEq

inductive RankResult where
  | ok (row : List (Option Piece))
  | err (e : FenErr)
  | panicked
deriving DecidableEq

/-- Expand a digit: write `n` empty squares starting at `col`; `none` models
the panic of a write at `col ≥ 8`. -/
def writeEmpties : Nat → Nat → List (Option Piece) → Option (Nat × List (Option Piece))
  | 0, col, acc => some (col, acc)
  | n + 1, col, acc =>
    if 8 ≤ col then none else writeEmpties n (col + 1) (none :: acc)

/-- The per-rank loop of `from_fen` (`acc` holds the written squares in
reverse; `col` counts writes).  After the characters are consumed the
source requires `col == 8`. -/
def parseRankAux : List Char → Nat → List (Option Piece) → RankResult
  | [], col, acc =>
    if col = 8 then RankResult.ok acc.reverse else RankResult.err FenErr.rowLenMismatch
  | ch :: rest, col, acc =>
    if isDigitCh ch then
      match writeEmpties (ch.toNat - 48) col acc with
      | none => RankResult.panicked
      | some (col', acc') => parseRankAux rest col' acc'
    else
      match char_to_piece ch with
      | none => RankResult.err (FenErr.unknownPiece ch)
      | some piece =>
        if 8 ≤ col then RankResult.panicked
        else parseRankAux rest (col + 1) (some piece :: acc)

def parseRank (g : List Char) : RankResult := parseRankAux g 0 []

inductive RanksResult where
  | ok (rows : List (List (Option Piece)))
  | err (e : FenErr)
  | panicked
deriving DecidableEq

/-- The rank loop of `from_fen` over the **reversed** group list
(`rows.iter().rev().enumerate()`), stopping at the first error. -/
def parseRanks : List (List Char) → RanksResult
  | [] => RanksResult.ok []
  | g :: rest =>
    match parseRank g with
    | RankResult.err e => RanksResult.err e
    | RankResult.panicked => RanksResult.panicked
    | RankResult.ok row =>
      match parseRanks rest with
      | RanksResult.ok rows => RanksResult.ok (row :: rows)
      | RanksResult.err e => RanksResult.err e
      | RanksResult.panicked => RanksResult.panicked

inductive ParseOutcome where
  | ok (g : ChessGame)
  | err (e : FenErr)
  | panicked
deriving DecidableEq

def ParseOutcome.isOk : ParseOutcome → Bool
  | ParseOutcome.ok _ => true
  | _ => false

/-- `ChessGame::from_fen`.  The source mutates a freshly constructed game
and returns `Result<(), String>`; on success every square and every parsed
field has been overwritten, so the result is returned here as a whole
`ChessGame` (with `promotion_square` still `none` as in `ChessGame::new`).
Note the faithful quirks: ≥ 6 whitespace-separated fields are accepted (only
`< 6` errors), the castling field is stored verbatim, and an unparsable
en-passant field silently becomes `None`. -/
def from_fen (s : List Char) : ParseOutcome :=
  let parts := splitWs s
  if parts.length < 6 then ParseOutcome.err FenErr.missingFields
  else
    let groups := splitSlash (parts.getD 0 [])
    if groups.length ≠ 8 then ParseOutcome.err FenErr.badRowCount
    else
      match parseRanks groups.reverse with
      | RanksResult.err e => ParseOutcome.err e
      | RanksResult.panicked => ParseOutcome.panicked
      | RanksResult.ok rows =>
        let active := parts.getD 1 []
        if active = ['w'] ∨ active = ['b'] then
          let turn := if active = ['w'] then PieceColor.White else PieceColor.Black
          let ep :=
            if parts.getD 3 [] = ['-'] then none
            else algebraic_to_square (parts.getD 3 [])
          match parseU32 (parts.getD 4 []) with
          | none => ParseOutcome.err FenErr.badHalfmove
          | some hm =>
            match parseU32 (parts.getD 5 []) with
            | none => ParseOutcome.err FenErr.badFullmove
            | some fm =>
              ParseOutcome.ok
                { board := rows
                  turn := turn
                  castling_rights := parts.getD 2 []
                  en_passant_target := ep
                  halfmove_clock := hm
                  fullmove_number := fm
                  promotion_square := none }
        else ParseOutcome.err FenErr.badColor

/-- The run-length emission loop of `to_fen` over one rank
(`empty_count` pending). -/
def emitRankAux : List (Option Piece) → Nat → List Char
  | [], cnt => if cnt = 0 then [] else natToChars cnt
  | none :: rest, cnt => emitRankAux rest (cnt + 1)
  | some piece :: rest, cnt =>
    (if cnt = 0 then [] else natToChars cnt) ++ piece_to_fen_char piece :: emitRankAux rest 0

def emitRank (row : List (Option Piece)) : List Char := emitRankAux row 0

/-- Join groups with a single separator character between them (`to_fen`
pushes `/` after every rank except the last). -/
def joinSep (sep : Char) : List (List Char) → List Char
  | [] => []
  | [g] => g
  | g :: rest => g ++ sep :: joinSep sep rest

/-- `ChessGame::to_fen`: ranks emitted for `row` in `(0..8).rev()` —
i.e. board row 7 first — joined with `/`, then the five other fields. -/
def to_fen (g : ChessGame) : List Char :=
  let placement :=
    joinSep '/'
      (((List.range 8).reverse).map fun r => emitRank (g.board.getD r []))
  let active : List Char := if g.turn = PieceColor.White then ['w'] else ['b']
  let castle : List Char := if g.castling_rights = [] then ['-'] else g.castling_rights
  let ep : List Char :=
    match g.en_passant_target with
    | some rc => square_to_algebraic rc.1 rc.2
    | none => ['-']
  placement ++ ' ' :: active ++ ' ' :: castle ++ ' ' :: ep ++
    ' ' :: natToChars g.halfmove_clock ++ ' ' :: natToChars g.fullmove_number

/-! ## Initial position (`ChessBoard::new_standard`, `ChessGame::new`) -/

def wP : Option Piece := some ⟨PieceType.Pawn, PieceColor.White, false⟩
def bP : Option Piece := some ⟨PieceType.Pawn, PieceColor.Black, false⟩

def backRank (c : PieceColor) : List (Option Piece) :=
  [some ⟨PieceType.Rook, c, false⟩, some ⟨PieceType.Knight, c, false⟩,
   some ⟨PieceType.Bishop, c, false⟩, some ⟨PieceType.Queen, c, false⟩,
   some ⟨PieceType.King, c, false⟩, some ⟨PieceType.Bishop, c, false⟩,
   some ⟨PieceType.Knight, c, false⟩, some ⟨PieceType.Rook, c, false⟩]

def emptyRank : List (Option Piece) := List.replicate 8 none

/-- `ChessBoard::new_standard`: row 0 is Black's back rank, row 6 the White
pawns, row 7 White's back rank. -/
def new_standard : Board :=
  [backRank PieceColor.Black, List.replicate 8 bP,
   emptyRank, emptyRank, emptyRank, emptyRank,
   List.replicate 8 wP, backRank PieceColor.White]

/-- The game state produced by `ChessGame::new`. -/
def standardGame : ChessGame :=
  { board := new_standard
    turn := PieceColor.White
    castling_rights := ['K', 'Q', 'k', 'q']
    en_passant_target := none
    halfmove_clock := 0
    fullmove_number := 1
    promotion_square := none }

/-! ## Lemmas about decimal rendering -/

theorem natToCharsGo_fuel :
    ∀ (n f₁ f₂ : Nat) (acc : List Char), n < f₁ → n < f₂ →
      natToCharsGo f₁ n acc = natToCharsGo f₂ n acc := by
  intro n
  induction n using Nat.strong_induction_on with
  | _ n ih =>
    intro f₁ f₂ acc h₁ h₂
    match f₁, h₁ with
    | f₁ + 1, _ =>
    match f₂, h₂ with
    | f₂ + 1, _ =>
    by_cases h10 : n < 10
    · simp [natToCharsGo, h10]
    · have hd : n / 10 < n := Nat.div_lt_self (by omega) (by omega)
      simp only [natToCharsGo, if_neg h10]
      exact ih (n / 10) hd f₁ f₂ _ (by omega) (by omega)

theorem natToCharsGo_acc :
    ∀ (n fuel : Nat) (acc : List Char), n < fuel →
      natToCharsGo fuel n acc = natToCharsGo fuel n [] ++ acc := by
  intro n
  induction n using Nat.strong_induction_on with
  | _ n ih =>
    intro fuel acc h
    match fuel, h with
    | fuel + 1, _ =>
    by_cases h10 : n < 10
    · simp [natToCharsGo, h10]
    · have hd : n / 10 < n := Nat.div_lt_self (by omega) (by omega)
      simp only [natToCharsGo, if_neg h10]
      rw [ih (n / 10) hd fuel _ (by omega), ih (n / 10) hd fuel [Nat.digitChar (n % 10)] (by omega),
        List.append_assoc]
      rfl

theorem natToChars_lt10 (n : Nat) (h : n < 10) : natToChars n = [Nat.digitChar n] := by
  simp [natToChars, natToCharsGo, h]

theorem natToChars_ge10 (n : Nat) (h : 10 ≤ n) :
    natToChars n = natToChars (n / 10) ++ [Nat.digitChar (n % 10)] := by
  have hd : n / 10 < n := Nat.div_lt_self (by omega) (by omega)
  have h1 : natToChars n = natToCharsGo n (n / 10) [Nat.digitChar (n % 10)] := by
    simp [natToChars, natToCharsGo, Nat.not_lt.mpr h]
  rw [h1, natToCharsGo_acc (n / 10) n _ hd,
    natToCharsGo_fuel (n / 10) n (n / 10 + 1) [] hd (Nat.lt_succ_self _)]
  rfl

theorem digitChar_isDigit : ∀ k, k < 10 → isDigitCh (Nat.digitChar k) = true := by decide

theorem digitChar_toNat : ∀ k, k < 10 → (Nat.digitChar k).toNat = 48 + k := by decide

theorem natToChars_ne_nil (n : Nat) : natToChars n ≠ [] := by
  by_cases h10 : n < 10
  · rw [natToChars_lt10 n h10]; simp
  · rw [natToChars_ge10 n (by omega)]; simp

theorem natToChars_all_digits (n : Nat) : (natToChars n).all isDigitCh = true := by
  induction n using Nat.strong_induction_on with
  | _ n ih =>
    by_cases h10 : n < 10
    · rw [natToChars_lt10 n h10]
      simp [digitChar_isDigit n h10]
    · have hd : n / 10 < n := Nat.div_lt_self (by omega) (by omega)
      rw [natToChars_ge10 n (by omega)]
      simp only [List.all_append, ih (n / 10) hd, Bool.true_and, List.all_cons, List.all_nil,
        Bool.and_true]
      exact digitChar_isDigit (n % 10) (Nat.mod_lt n (by omega))

theorem digitsVal_append_one (xs : List Char) (d : Char) :
    digitsVal (xs ++ [d]) = 10 * digitsVal xs + (d.toNat - 48) := by
  simp [digitsVal, List.foldl_append]

theorem digitsVal_natToChars (n : Nat) : digitsVal (natToChars n) = n := by
  induction n using Nat.strong_induction_on with
  | _ n ih =>
    by_cases h10 : n < 10
    · rw [natToChars_lt10 n h10]
      simp [digitsVal, digitChar_toNat n h10]
    · have hd : n / 10 < n := Nat.div_lt_self (by omega) (by omega)
      rw [natToChars_ge10 n (by omega), digitsVal_append_one, ih (n / 10) hd,
        digitChar_toNat (n % 10) (Nat.mod_lt n (by omega))]
      omega

theorem isDigitCh_ne_plus {c : Char} (h : isDigitCh c = true) : c ≠ '+' := by
  intro hc
  subst hc
  simp [isDigitCh] at h

theorem stripPlus_digits (t : List Char) (h : t.all isDigitCh = true) (hne : t ≠ []) :
    stripPlus t = t := by
  match t, hne with
  | c :: r, _ =>
    have hc : isDigitCh c = true := by
      simp [List.all_cons] at h
      exact h.1
    simp [stripPlus, isDigitCh_ne_plus hc]

theorem parseU32_natToChars (k : Nat) (h : k < 4294967296) :
    parseU32 (natToChars k) = some k := by
  have hall := natToChars_all_digits k
  have hne := natToChars_ne_nil k
  simp only [parseU32, stripPlus_digits _ hall hne, hall, hne, ne_eq, not_false_eq_true,
    and_self, if_true, digitsVal_natToChars, if_pos h]

/-! ## Lemmas about whitespace and slash splitting -/

theorem splitWsAux_word :
    ∀ (w rest cur : List Char), (∀ c ∈ w, isWs c = false) →
      cur.reverse ++ w ≠ [] →
      splitWsAux (w ++ ' ' :: rest) cur = (cur.reverse ++ w) :: splitWsAux rest [] := by
  intro w
  induction w with
  | nil =>
    intro rest cur _ hne
    have hcur : cur ≠ [] := by
      intro h
      subst h
      simp at hne
    have hsp : isWs ' ' = true := by decide
    simp [splitWsAux, hsp, hcur]
  | cons c w ih =>
    intro rest cur hws _
    have hc : isWs c = false := hws c (by simp)
    have hrec := ih rest (c :: cur) (fun x hx => hws x (by simp [hx])) (by simp)
    simp only [List.cons_append, splitWsAux, hc, Bool.false_eq_true, if_false, List.append_eq,
      hrec, List.reverse_cons, List.append_assoc, List.cons_append, List.nil_append]

theorem splitWsAux_last :
    ∀ (w cur : List Char), (∀ c ∈ w, isWs c = false) → cur.reverse ++ w ≠ [] →
      splitWsAux w cur = [cur.reverse ++ w] := by
  intro w
  induction w with
  | nil =>
    intro cur _ hne
    have hcur : cur ≠ [] := by
      intro h
      subst h
      simp at hne
    simp [splitWsAux, hcur]
  | cons c w ih =>
    intro cur hws _
    have hc : isWs c = false := hws c (by simp)
    have hrec := ih (c :: cur) (fun x hx => hws x (by simp [hx])) (by simp)
    simp only [splitWsAux, hc, Bool.false_eq_true, if_false, List.append_eq, hrec,
      List.reverse_cons, List.append_assoc, List.cons_append, List.nil_append]

theorem splitWs_word (w rest : List Char) (hws : ∀ c ∈ w, isWs c = false) (hne : w ≠ []) :
    splitWs (w ++ ' ' :: rest) = w :: splitWs rest := by
  simpa [splitWs] using splitWsAux_word w rest [] hws (by simpa)

theorem splitWs_single (w : List Char) (hws : ∀ c ∈ w, isWs c = false) (hne : w ≠ []) :
    splitWs w = [w] := by
  simpa [splitWs] using splitWsAux_last w [] hws (by simpa)

theorem splitSlash_ne_nil : ∀ s : List Char, splitSlash s ≠ [] := by
  intro s
  induction s with
  | nil => simp [splitSlash]
  | cons c rest ih =>
    simp only [splitSlash]
    match h : splitSlash rest with
    | [] => exact absurd h ih
    | g :: t =>
      by_cases hc : c = '/' <;> simp [hc]

theorem splitSlash_nosl :
    ∀ g : List Char, (∀ c ∈ g, c ≠ '/') → splitSlash g = [g] := by
  intro g
  induction g with
  | nil => intro _; rfl
  | cons c rest ih =>
    intro h
    have hc : c ≠ '/' := h c (by simp)
    have hr := ih fun x hx => h x (by simp [hx])
    simp [splitSlash, hr, hc]

theorem splitSlash_append (g rest : List Char) (hg : ∀ c ∈ g, c ≠ '/') :
    splitSlash (g ++ '/' :: rest) = g :: splitSlash rest := by
  induction g with
  | nil =>
    simp only [List.nil_append, splitSlash]
    match h : splitSlash rest with
    | [] => exact absurd h (splitSlash_ne_nil rest)
    | g' :: t => simp
  | cons c g ih =>
    have hc : c ≠ '/' := hg c (by simp)
    have hr := ih fun x hx => hg x (by simp [hx])
    simp only [List.cons_append, splitSlash, List.append_eq]
    rw [hr]
    simp [hc]

theorem splitSlash_joinSep :
    ∀ gs : List (List Char), gs ≠ [] → (∀ g ∈ gs, ∀ c ∈ g, c ≠ '/') →
      splitSlash (joinSep '/' gs) = gs := by
  intro gs
  induction gs with
  | nil => intro h; exact absurd rfl h
  | cons g t ih =>
    intro _ hg
    match t with
    | [] => exact splitSlash_nosl g (hg g (by simp))
    | g' :: t' =>
      have : joinSep '/' (g :: g' :: t') = g ++ '/' :: joinSep '/' (g' :: t') := rfl
      rw [this, splitSlash_append g _ (hg g (by simp)),
        ih (by simp) fun x hx => hg x (by simp [hx])]

/-! ## Canonical FEN rank grammar

A canonical FEN rank is a sequence of tokens — piece letters and gap digits
`1..8` with no two adjacent gaps — whose widths sum to 8 (spec §4.4: "runs
of empty squares coalesce into the digit 1..8"). -/

inductive RankTok where
  | pc (c : Char)
  | gap (n : Nat)
deriving DecidableEq, Repr

def tokChars : RankTok → List Char
  | RankTok.pc c => [c]
  | RankTok.gap n => natToChars n

def tokSquares : RankTok → List (Option Piece)
  | RankTok.pc c => [char_to_piece c]
  | RankTok.gap n => List.replicate n none

def tokWidth : RankTok → Nat
  | RankTok.pc _ => 1
  | RankTok.gap n => n

def pieceLetters : List Char :=
  ['P', 'N', 'B', 'R', 'Q', 'K', 'p', 'n', 'b', 'r', 'q', 'k']

def tokOk : RankTok → Bool
  | RankTok.pc c => decide (c ∈ pieceLetters)
  | RankTok.gap n => decide (1 ≤ n ∧ n ≤ 8)

def noAdjGaps : List RankTok → Bool
  | RankTok.gap _ :: RankTok.gap _ :: _ => false
  | _ :: rest => noAdjGaps rest
  | [] => true

def notGapHead : List RankTok → Bool
  | RankTok.gap _ :: _ => false
  | _ => true

def rankChars (ts : List RankTok) : List Char := (ts.map tokChars).flatten

def rankSquares (ts : List RankTok) : List (Option Piece) := (ts.map tokSquares).flatten

def RankToksOk (ts : List RankTok) : Prop :=
  ts.all tokOk = true ∧ noAdjGaps ts = true ∧ (ts.map tokWidth).sum = 8

instance decRankToksOk (ts : List RankTok) : Decidable (RankToksOk ts) := by
  unfold RankToksOk
  infer_instance

theorem pieceLetters_piece :
    ∀ c ∈ pieceLetters, ∃ p, char_to_piece c = some p ∧ piece_to_fen_char p = c := by
  decide

theorem pieceLetters_notDigit : ∀ c ∈ pieceLetters, isDigitCh c = false := by decide

theorem noAdjGaps_tail : ∀ (t : RankTok) (rest : List RankTok),
    noAdjGaps (t :: rest) = true → noAdjGaps rest = true := by
  intro t rest h
  match t, rest with
  | RankTok.pc c, rest => exact h
  | RankTok.gap n, [] => rfl
  | RankTok.gap n, RankTok.pc c :: r => exact h
  | RankTok.gap n, RankTok.gap m :: r => exact absurd h (by simp [noAdjGaps])

theorem noAdjGaps_gap_cons : ∀ (n : Nat) (rest : List RankTok),
    noAdjGaps (RankTok.gap n :: rest) = true → notGapHead rest = true := by
  intro n rest h
  match rest with
  | [] => rfl
  | RankTok.pc c :: r => rfl
  | RankTok.gap m :: r => exact absurd h (by simp [noAdjGaps])

theorem writeEmpties_ok :
    ∀ (n col : Nat) (acc : List (Option Piece)), col + n ≤ 8 →
      writeEmpties n col acc = some (col + n, List.replicate n none ++ acc) := by
  intro n
  induction n with
  | zero => intro col acc _; simp [writeEmpties]
  | succ n ih =>
    intro col acc h
    have hcol : ¬ 8 ≤ col := by omega
    have harith : col + 1 + n = col + (n + 1) := by omega
    have hrep : List.replicate n (none : Option Piece) ++ none :: acc =
        List.replicate (n + 1) none ++ acc := by
      rw [List.replicate_succ']
      simp
    rw [writeEmpties, if_neg hcol, ih (col + 1) (none :: acc) (by omega), harith, hrep]

theorem parseRankAux_nil (col : Nat) (acc : List (Option Piece)) :
    parseRankAux [] col acc =
      if col = 8 then RankResult.ok acc.reverse
      else RankResult.err FenErr.rowLenMismatch := rfl

theorem parseRankAux_cons (ch : Char) (rest : List Char) (col : Nat)
    (acc : List (Option Piece)) :
    parseRankAux (ch :: rest) col acc =
      if isDigitCh ch then
        match writeEmpties (ch.toNat - 48) col acc with
        | none => RankResult.panicked
        | some (col', acc') => parseRankAux rest col' acc'
      else
        match char_to_piece ch with
        | none => RankResult.err (FenErr.unknownPiece ch)
        | some piece =>
          if 8 ≤ col then RankResult.panicked
          else parseRankAux rest (col + 1) (some piece :: acc) := rfl

theorem parseRankAux_toks :
    ∀ (ts : List RankTok) (col : Nat) (acc : List (Option Piece)),
      ts.all tokOk = true → col + (ts.map tokWidth).sum = 8 →
      parseRankAux (rankChars ts) col acc =
        RankResult.ok (acc.reverse ++ rankSquares ts) := by
  intro ts
  induction ts with
  | nil =>
    intro col acc _ hsum
    simp only [List.map_nil, List.sum_nil] at hsum
    subst hsum
    show parseRankAux [] 8 acc = _
    rw [parseRankAux_nil]
    simp [rankSquares]
  | cons t rest ih =>
    intro col acc hok hsum
    have hokt : tokOk t = true := by
      simp only [List.all_cons, Bool.and_eq_true] at hok
      exact hok.1
    have hokr : rest.all tokOk = true := by
      simp only [List.all_cons, Bool.and_eq_true] at hok
      exact hok.2
    match t with
    | RankTok.pc c =>
      have hc : c ∈ pieceLetters := by
        simpa [tokOk] using hokt
      obtain ⟨p, hp, _⟩ := pieceLetters_piece c hc
      have hnd : isDigitCh c = false := pieceLetters_notDigit c hc
      have hsum' : col + 1 + (rest.map tokWidth).sum = 8 := by
        simp only [List.map_cons, List.sum_cons, tokWidth] at hsum
        omega
      have hcol : ¬ 8 ≤ col := by omega
      have hchars : rankChars (RankTok.pc c :: rest) = c :: rankChars rest := by
        simp [rankChars, tokChars]
      rw [hchars]
      simp only [parseRankAux_cons, hnd, Bool.false_eq_true, if_false, hp, if_neg hcol]
      rw [ih (col + 1) (some p :: acc) hokr hsum']
      simp [rankSquares, tokSquares, hp]
    | RankTok.gap n =>
      have hn : 1 ≤ n ∧ n ≤ 8 := by
        simpa [tokOk] using hokt
      have hsum' : col + n + (rest.map tokWidth).sum = 8 := by
        simp only [List.map_cons, List.sum_cons, tokWidth] at hsum
        omega
      have hn10 : n < 10 := by omega
      have hchars : rankChars (RankTok.gap n :: rest) =
          Nat.digitChar n :: rankChars rest := by
        simp [rankChars, tokChars, natToChars_lt10 n hn10]
      have hdg : isDigitCh (Nat.digitChar n) = true := digitChar_isDigit n hn10
      have hdv : (Nat.digitChar n).toNat - 48 = n := by
        rw [digitChar_toNat n hn10]
        omega
      rw [hchars]
      simp only [parseRankAux_cons, hdg, if_true, hdv, writeEmpties_ok n col acc (by omega)]
      rw [ih (col + n) (List.replicate n none ++ acc) hokr hsum']
      simp [rankSquares, tokSquares, List.reverse_append]

theorem parseRank_toks (ts : List RankTok) (h : RankToksOk ts) :
    parseRank (rankChars ts) = RankResult.ok (rankSquares ts) := by
  obtain ⟨hok, _, hsum⟩ := h
  simpa using parseRankAux_toks ts 0 [] hok (by simpa using hsum)

theorem emitRankAux_replicate :
    ∀ (n : Nat) (X : List (Option Piece)) (cnt : Nat),
      emitRankAux (List.replicate n none ++ X) cnt = emitRankAux X (cnt + n) := by
  intro n
  induction n with
  | zero => intro X cnt; simp
  | succ n ih =>
    intro X cnt
    rw [List.replicate_succ, List.cons_append, emitRankAux, ih X (cnt + 1)]
    congr 1
    omega

theorem emitRankAux_toks :
    ∀ (ts : List RankTok), ts.all tokOk = true → noAdjGaps ts = true →
      ∀ cnt : Nat, (cnt = 0 ∨ notGapHead ts = true) →
        emitRankAux (rankSquares ts) cnt =
          (if cnt = 0 then [] else natToChars cnt) ++ rankChars ts := by
  intro ts
  induction ts with
  | nil =>
    intro _ _ cnt _
    by_cases hc : cnt = 0 <;> simp [rankSquares, rankChars, emitRankAux, hc]
  | cons t rest ih =>
    intro hok hadj cnt hcnt
    have hokt : tokOk t = true := by
      simp only [List.all_cons, Bool.and_eq_true] at hok
      exact hok.1
    have hokr : rest.all tokOk = true := by
      simp only [List.all_cons, Bool.and_eq_true] at hok
      exact hok.2
    have hadjr : noAdjGaps rest = true := noAdjGaps_tail t rest hadj
    match t with
    | RankTok.pc c =>
      have hc : c ∈ pieceLetters := by
        simpa [tokOk] using hokt
      obtain ⟨p, hp, hpc⟩ := pieceLetters_piece c hc
      have hsq : rankSquares (RankTok.pc c :: rest) = some p :: rankSquares rest := by
        simp [rankSquares, tokSquares, hp]
      rw [hsq, emitRankAux, ih hokr hadjr 0 (Or.inl rfl)]
      simp [rankChars, tokChars, hpc]
    | RankTok.gap n =>
      have hn : 1 ≤ n ∧ n ≤ 8 := by
        simpa [tokOk] using hokt
      have hcnt0 : cnt = 0 := by
        rcases hcnt with h | h
        · exact h
        · exact absurd h (by simp [notGapHead])
      subst hcnt0
      have hsq : rankSquares (RankTok.gap n :: rest) =
          List.replicate n none ++ rankSquares rest := by
        simp [rankSquares, tokSquares]
      rw [hsq, emitRankAux_replicate n _ 0]
      simp only [Nat.zero_add]
      rw [ih hokr hadjr n (Or.inr (noAdjGaps_gap_cons n rest hadj))]
      have hn0 : ¬ n = 0 := by omega
      simp [rankChars, tokChars, hn0]

theorem emitRank_toks (ts : List RankTok) (h : RankToksOk ts) :
    emitRank (rankSquares ts) = rankChars ts := by
  obtain ⟨hok, hadj, _⟩ := h
  simpa [emitRank] using emitRankAux_toks ts hok hadj 0 (Or.inl rfl)

theorem rankSquares_length (ts : List RankTok) (h : RankToksOk ts) :
    (rankSquares ts).length = 8 := by
  obtain ⟨_, _, hsum⟩ := h
  rw [rankSquares, List.length_flatten]
  rw [← hsum]
  congr 1
  rw [List.map_map]
  apply List.map_congr_left
  intro t _
  match t with
  | RankTok.pc c => rfl
  | RankTok.gap n => simp [tokSquares, tokWidth]

/-! ## Placement-level parsing lemmas -/

theorem parseRanks_toks :
    ∀ tss : List (List RankTok), (∀ ts ∈ tss, RankToksOk ts) →
      parseRanks (tss.map rankChars) = RanksResult.ok (tss.map rankSquares) := by
  intro tss
  induction tss with
  | nil => intro _; rfl
  | cons ts rest ih =>
    intro h
    have h1 := parseRank_toks ts (h ts (by simp))
    have h2 := ih fun x hx => h x (by simp [hx])
    simp only [List.map_cons, parseRanks, h1, h2]

theorem pieceLetters_class : ∀ c ∈ pieceLetters, isWs c = false ∧ c ≠ '/' := by decide

theorem isDigitCh_not_ws {c : Char} (h : isDigitCh c = true) : isWs c = false := by
  by_contra hws
  have hws' : isWs c = true := by
    cases hv : isWs c
    · exact absurd hv hws
    · rfl
  have : c = ' ' ∨ c = '\t' ∨ c = '\n' ∨ c = '\r' := of_decide_eq_true hws'
  rcases this with h1 | h1 | h1 | h1 <;> (subst h1; simp [isDigitCh] at h)

theorem isDigitCh_ne_slash {c : Char} (h : isDigitCh c = true) : c ≠ '/' := by
  intro h1
  subst h1
  simp [isDigitCh] at h

theorem natToChars_class (n : Nat) : ∀ c ∈ natToChars n, isWs c = false ∧ c ≠ '/' := by
  intro c hc
  have hd : isDigitCh c = true := by
    have := natToChars_all_digits n
    rw [List.all_eq_true] at this
    exact this c hc
  exact ⟨isDigitCh_not_ws hd, isDigitCh_ne_slash hd⟩

theorem tokChars_class (t : RankTok) (h : tokOk t = true) :
    ∀ c ∈ tokChars t, isWs c = false ∧ c ≠ '/' := by
  intro c hc
  match t with
  | RankTok.pc c' =>
    have hc' : c' ∈ pieceLetters := by simpa [tokOk] using h
    have : c = c' := by simpa [tokChars] using hc
    subst this
    exact pieceLetters_class c hc'
  | RankTok.gap n => exact natToChars_class n c (by simpa [tokChars] using hc)

theorem rankChars_class (ts : List RankTok) (h : ts.all tokOk = true) :
    ∀ c ∈ rankChars ts, isWs c = false ∧ c ≠ '/' := by
  intro c hc
  rw [rankChars, List.mem_flatten] at hc
  obtain ⟨l, hl, hcl⟩ := hc
  rw [List.mem_map] at hl
  obtain ⟨t, ht, rfl⟩ := hl
  rw [List.all_eq_true] at h
  exact tokChars_class t (h t ht) c hcl

theorem tokChars_ne_nil (t : RankTok) : tokChars t ≠ [] := by
  match t with
  | RankTok.pc c => simp [tokChars]
  | RankTok.gap n => simpa [tokChars] using natToChars_ne_nil n

theorem rankChars_ne_nil (ts : List RankTok) (h : RankToksOk ts) : rankChars ts ≠ [] := by
  obtain ⟨_, _, hsum⟩ := h
  match ts with
  | [] => simp at hsum
  | t :: rest =>
    have : rankChars (t :: rest) = tokChars t ++ rankChars rest := by
      simp [rankChars]
    rw [this]
    simp [tokChars_ne_nil t]

theorem joinSep_mem (sep : Char) :
    ∀ (gs : List (List Char)) (c : Char), c ∈ joinSep sep gs →
      c = sep ∨ ∃ g ∈ gs, c ∈ g := by
  intro gs
  induction gs with
  | nil => intro c hc; simp [joinSep] at hc
  | cons g t ih =>
    intro c hc
    match t with
    | [] => exact Or.inr ⟨g, by simp, by simpa [joinSep] using hc⟩
    | g' :: t' =>
      rw [show joinSep sep (g :: g' :: t') = g ++ sep :: joinSep sep (g' :: t') from rfl] at hc
      rcases List.mem_append.mp hc with h | h
      · exact Or.inr ⟨g, by simp, h⟩
      · rcases List.mem_cons.mp h with h | h
        · exact Or.inl h
        · rcases ih c h with h | ⟨g'', hg'', hc''⟩
          · exact Or.inl h
          · exact Or.inr ⟨g'', by simp [hg''], hc''⟩

theorem joinSep_ne_nil (sep : Char) (gs : List (List Char)) (h : gs ≠ [])
    (h1 : ∀ g ∈ gs, g ≠ []) : joinSep sep gs ≠ [] := by
  match gs with
  | [g] => simpa [joinSep] using h1 g (by simp)
  | g :: g' :: t =>
    rw [show joinSep sep (g :: g' :: t) = g ++ sep :: joinSep sep (g' :: t) from rfl]
    simp

def placementOf (tss : List (List RankTok)) : List Char := joinSep '/' (tss.map rankChars)

theorem placementOf_class (tss : List (List RankTok)) (h : ∀ ts ∈ tss, RankToksOk ts) :
    ∀ c ∈ placementOf tss, isWs c = false := by
  intro c hc
  rcases joinSep_mem '/' (tss.map rankChars) c hc with h1 | ⟨g, hg, hcg⟩
  · subst h1; rfl
  · rw [List.mem_map] at hg
    obtain ⟨ts, hts, rfl⟩ := hg
    exact (rankChars_class ts (h ts hts).1 c hcg).1

theorem placementOf_ne_nil (tss : List (List RankTok)) (hlen : tss.length = 8)
    (h : ∀ ts ∈ tss, RankToksOk ts) : placementOf tss ≠ [] := by
  apply joinSep_ne_nil
  · intro hempty
    rw [List.map_eq_nil_iff] at hempty
    subst hempty
    simp at hlen
  · intro g hg
    rw [List.mem_map] at hg
    obtain ⟨ts, hts, rfl⟩ := hg
    exact rankChars_ne_nil ts (h ts hts)

theorem splitSlash_placementOf (tss : List (List RankTok)) (hlen : tss.length = 8)
    (h : ∀ ts ∈ tss, RankToksOk ts) :
    splitSlash (placementOf tss) = tss.map rankChars := by
  apply splitSlash_joinSep
  · intro hempty
    rw [List.map_eq_nil_iff] at hempty
    subst hempty
    simp at hlen
  · intro g hg c hc
    rw [List.mem_map] at hg
    obtain ⟨ts, hts, rfl⟩ := hg
    exact (rankChars_class ts (h ts hts).1 c hc).2

theorem map_range8_rev_getD {α β : Type} (l : List α) (d : α) (f : α → β)
    (h : l.length = 8) :
    ((List.range 8).reverse).map (fun r => f (l.getD r d)) = (l.reverse).map f := by
  rcases l with _ | ⟨a1, _ | ⟨a2, _ | ⟨a3, _ | ⟨a4, _ | ⟨a5, _ | ⟨a6, _ | ⟨a7, _ | ⟨a8, _ | ⟨a9, l⟩⟩⟩⟩⟩⟩⟩⟩⟩ <;>
    first
      | rfl
      | simp at h

/-- Round trip for algebraic square names emitted by `square_to_algebraic`
(used for the en-passant field and for claim C10). -/
theorem alg_square_round :
    ∀ r, r < 8 → ∀ c, c < 8 →
      algebraic_to_square (square_to_algebraic r c) = some (r, c) := by
  decide

/-! ## Valid FEN strings (spec §4.4 grammar)

A valid six-field FEN: a canonical placement (eight canonical ranks joined
by `/`), active color `w`/`b`, castling `-` or a nonempty in-order subset of
`KQkq`, en-passant `-` or an algebraic square, and two decimal counters.
The `bounded` flag additionally restricts the counters to the `u32` range
used by the implementation; `ValidFEN false` is the spec's unbounded
reading ("non-negative decimal integers"). -/
def ValidFEN (bounded : Bool) (s : List Char) : Prop :=
  ∃ (tss : List (List RankTok)) (a cf ef : List Char) (hm fm : Nat),
    tss.length = 8 ∧ (∀ ts ∈ tss, RankToksOk ts) ∧
    (a = ['w'] ∨ a = ['b']) ∧
    (cf = ['-'] ∨ (cf ≠ [] ∧ cf.Sublist ['K', 'Q', 'k', 'q'])) ∧
    (ef = ['-'] ∨ ∃ r c, r < 8 ∧ c < 8 ∧ ef = square_to_algebraic r c) ∧
    (bounded = true → hm < 4294967296 ∧ fm < 4294967296) ∧
    s = placementOf tss ++ ' ' :: a ++ ' ' :: cf ++ ' ' :: ef ++
        ' ' :: natToChars hm ++ ' ' :: natToChars fm

theorem sublist_KQkq_class (cf : List Char) (h : cf.Sublist ['K', 'Q', 'k', 'q']) :
    ∀ c ∈ cf, isWs c = false := by
  intro c hc
  have : c ∈ ['K', 'Q', 'k', 'q'] := h.mem hc
  fin_cases this <;> rfl

theorem square_to_algebraic_expand (r c : Nat) (hr : r < 8) :
    square_to_algebraic r c = [Char.ofNat (97 + c), Nat.digitChar (8 - r)] := by
  rw [square_to_algebraic, natToChars_lt10 (8 - r) (by omega)]

theorem ef_class (ef : List Char)
    (hef : ef = ['-'] ∨ ∃ r c, r < 8 ∧ c < 8 ∧ ef = square_to_algebraic r c) :
    (∀ c ∈ ef, isWs c = false) ∧ ef ≠ [] := by
  rcases hef with rfl | ⟨r, c, hr, hc, rfl⟩
  · exact ⟨by decide, by simp⟩
  · rw [square_to_algebraic_expand r c hr]
    constructor
    · intro x hx
      rcases List.mem_cons.mp hx with rfl | hx
      · have : ∀ c0, c0 < 8 → isWs (Char.ofNat (97 + c0)) = false := by decide
        exact this c hc
      · have hx' : x = Nat.digitChar (8 - r) := by simpa using hx
        subst hx'
        exact isDigitCh_not_ws (digitChar_isDigit (8 - r) (by omega))
    · simp

/-- Splitting a valid FEN into its six fields. -/
theorem splitWs_valid_fen (tss : List (List RankTok)) (a cf ef : List Char) (hm fm : Nat)
    (hlen : tss.length = 8) (hok : ∀ ts ∈ tss, RankToksOk ts)
    (ha : a = ['w'] ∨ a = ['b'])
    (hcf_ne : cf ≠ []) (hcf_ws : ∀ c ∈ cf, isWs c = false)
    (hef : ef = ['-'] ∨ ∃ r c, r < 8 ∧ c < 8 ∧ ef = square_to_algebraic r c) :
    splitWs (placementOf tss ++ ' ' :: a ++ ' ' :: cf ++ ' ' :: ef ++
        ' ' :: natToChars hm ++ ' ' :: natToChars fm) =
      [placementOf tss, a, cf, ef, natToChars hm, natToChars fm] := by
  obtain ⟨hef_ws, hef_ne⟩ := ef_class ef hef
  have haws : ∀ c ∈ a, isWs c = false := by
    rcases ha with rfl | rfl <;> decide
  have hane : a ≠ [] := by
    rcases ha with rfl | rfl <;> simp
  simp only [List.append_assoc, List.cons_append]
  rw [splitWs_word _ _ (placementOf_class tss hok) (placementOf_ne_nil tss hlen hok),
    splitWs_word _ _ haws hane,
    splitWs_word _ _ hcf_ws hcf_ne,
    splitWs_word _ _ hef_ws hef_ne,
    splitWs_word _ _ (fun c hc => (natToChars_class hm c hc).1) (natToChars_ne_nil hm),
    splitWs_single _ (fun c hc => (natToChars_class fm c hc).1) (natToChars_ne_nil fm)]

/-- `from_fen` on a valid FEN: success, with the parsed record spelled
out (note the reversed rank order stored into the board). -/
theorem from_fen_valid (tss : List (List RankTok)) (a cf ef : List Char) (hm fm : Nat)
    (hlen : tss.length = 8) (hok : ∀ ts ∈ tss, RankToksOk ts)
    (ha : a = ['w'] ∨ a = ['b'])
    (hcf_ne : cf ≠ []) (hcf_ws : ∀ c ∈ cf, isWs c = false)
    (hef : ef = ['-'] ∨ ∃ r c, r < 8 ∧ c < 8 ∧ ef = square_to_algebraic r c)
    (hm32 : hm < 4294967296) (fm32 : fm < 4294967296) :
    from_fen (placementOf tss ++ ' ' :: a ++ ' ' :: cf ++ ' ' :: ef ++
        ' ' :: natToChars hm ++ ' ' :: natToChars fm) =
      ParseOutcome.ok
        { board := (tss.reverse).map rankSquares
          turn := if a = ['w'] then PieceColor.White else PieceColor.Black
          castling_rights := cf
          en_passant_target := if ef = ['-'] then none else algebraic_to_square ef
          halfmove_clock := hm
          fullmove_number := fm
          promotion_square := none } := by
  unfold from_fen
  rw [splitWs_valid_fen tss a cf ef hm fm hlen hok ha hcf_ne hcf_ws hef]
  simp only [List.length_cons, List.length_nil, List.getD_cons_zero, List.getD_cons_succ]
  rw [if_neg (by omega)]
  rw [splitSlash_placementOf tss hlen hok]
  rw [if_neg (by simp [hlen])]
  rw [← List.map_reverse]
  rw [parseRanks_toks tss.reverse (fun ts hts => hok ts (List.mem_reverse.mp hts))]
  simp only [if_pos ha, parseU32_natToChars hm hm32, parseU32_natToChars fm fm32]

theorem to_fen_board (tss : List (List RankTok)) (hlen : tss.length = 8)
    (hok : ∀ ts ∈ tss, RankToksOk ts) :
    ((List.range 8).reverse).map
        (fun r => emitRank (((tss.reverse).map rankSquares).getD r [])) =
      tss.map rankChars := by
  rw [map_range8_rev_getD ((tss.reverse).map rankSquares) [] emitRank (by simp [hlen])]
  rw [← List.map_reverse, List.reverse_reverse, List.map_map]
  apply List.map_congr_left
  intro ts hts
  simp only [Function.comp_apply]
  exact emitRank_toks ts (hok ts hts)

/-- `to_fen` of a position whose board stores the reversed canonical ranks
(the shape produced by `from_fen`). -/
theorem to_fen_parts (tss : List (List RankTok)) (hlen : tss.length = 8)
    (hok : ∀ ts ∈ tss, RankToksOk ts) (t : PieceColor) (cf : List Char) (hcf : cf ≠ [])
    (ep : Option (Nat × Nat)) (hm fm : Nat) (ps : Option (Nat × Nat)) :
    to_fen
        { board := (tss.reverse).map rankSquares
          turn := t
          castling_rights := cf
          en_passant_target := ep
          halfmove_clock := hm
          fullmove_number := fm
          promotion_square := ps } =
      placementOf tss ++ ' ' :: (if t = PieceColor.White then ['w'] else ['b']) ++
        ' ' :: cf ++
        ' ' :: (match ep with
                | some rc => square_to_algebraic rc.1 rc.2
                | none => ['-']) ++
        ' ' :: natToChars hm ++ ' ' :: natToChars fm := by
  simp only [to_fen]
  rw [to_fen_board tss hlen hok, if_neg hcf]
  rfl

/-- Every `u32`-bounded valid FEN parses successfully and re-emits as the
identical string. -/
theorem valid_fen_round_trip (s : List Char) (h : ValidFEN true s) :
    ∃ g, from_fen s = ParseOutcome.ok g ∧ to_fen g = s := by
  obtain ⟨tss, a, cf, ef, hm, fm, hlen, hok, ha, hcf, hef, hbound, rfl⟩ := h
  obtain ⟨hm32, fm32⟩ := hbound rfl
  have hcf_ne : cf ≠ [] := by
    rcases hcf with rfl | ⟨h1, _⟩
    · simp
    · exact h1
  have hcf_ws : ∀ c ∈ cf, isWs c = false := by
    rcases hcf with rfl | ⟨_, h2⟩
    · decide
    · exact sublist_KQkq_class cf h2
  refine ⟨_, from_fen_valid tss a cf ef hm fm hlen hok ha hcf_ne hcf_ws hef hm32 fm32, ?_⟩
  rw [to_fen_parts tss hlen hok _ cf hcf_ne _ hm fm none]
  have hA : (if (if a = ['w'] then PieceColor.White else PieceColor.Black) =
      PieceColor.White then ['w'] else ['b']) = a := by
    rcases ha with rfl | rfl <;> decide
  have hE : (match (if ef = ['-'] then none else algebraic_to_square ef) with
             | some rc => square_to_algebraic rc.1 rc.2
             | none => ['-']) = ef := by
    rcases hef with rfl | ⟨r, c, hr, hc, rfl⟩
    · simp
    · have hne : square_to_algebraic r c ≠ ['-'] := by
        rw [square_to_algebraic_expand r c hr]
        simp
      rw [if_neg hne, alg_square_round r hr c hc]
  rw [hA, hE]

/-! ## Lemmas about `max_by_key` -/

theorem maxFold_some {α : Type} (f : α → Int) :
    ∀ (l : List α) (b : α), l.foldl (maxStep f) (some b) ≠ none := by
  intro l
  induction l with
  | nil => intro b; simp
  | cons x t ih =>
    intro b
    rw [List.foldl_cons]
    rcases hs : maxStep f (some b) x with _ | b'
    · rw [maxStep] at hs
      by_cases hle : f b ≤ f x <;> simp [hle] at hs
    · exact ih b'

theorem maxByLast_none_iff {α : Type} (f : α → Int) (l : List α) :
    maxByLast f l = none ↔ l = [] := by
  cases l with
  | nil => simp [maxByLast]
  | cons x t =>
    constructor
    · intro h
      rw [maxByLast, List.foldl_cons] at h
      exact absurd h (maxFold_some f t x)
    · intro h
      cases h

theorem maxFold_mem {α : Type} (f : α → Int) :
    ∀ (l : List α) (acc : Option α) (m : α),
      l.foldl (maxStep f) acc = some m → m ∈ l ∨ acc = some m := by
  intro l
  induction l with
  | nil =>
    intro acc m h
    exact Or.inr h
  | cons x t ih =>
    intro acc m h
    rw [List.foldl_cons] at h
    rcases ih (maxStep f acc x) m h with hm | hm
    · exact Or.inl (by simp [hm])
    · rcases acc with _ | b
      · rw [maxStep] at hm
        injection hm with h2
        exact Or.inl (by simp [h2])
      · rw [maxStep] at hm
        by_cases hle : f b ≤ f x
        · rw [if_pos hle] at hm
          injection hm with h2
          exact Or.inl (by simp [h2])
        · rw [if_neg hle] at hm
          exact Or.inr hm

theorem maxFold_le {α : Type} (f : α → Int) :
    ∀ (l : List α) (acc : Option α) (m : α),
      l.foldl (maxStep f) acc = some m →
      (∀ x ∈ l, f x ≤ f m) ∧ (∀ b, acc = some b → f b ≤ f m) := by
  intro l
  induction l with
  | nil =>
    intro acc m h
    refine ⟨by simp, ?_⟩
    intro b hb
    rw [hb] at h
    injection h with h2
    rw [h2]
  | cons x t ih =>
    intro acc m h
    rw [List.foldl_cons] at h
    obtain ⟨ht, hacc⟩ := ih (maxStep f acc x) m h
    have hx : f x ≤ f m := by
      rcases acc with _ | b
      · exact hacc x rfl
      · rw [show maxStep f (some b) x = if f b ≤ f x then some x else some b from rfl] at h hacc
        by_cases hle : f b ≤ f x
        · exact hacc x (by rw [if_pos hle])
        · exact le_trans (by omega) (hacc b (by rw [if_neg hle]))
    refine ⟨?_, ?_⟩
    · intro y hy
      rcases List.mem_cons.mp hy with rfl | hy
      · exact hx
      · exact ht y hy
    · intro b hb
      subst hb
      rw [show maxStep f (some b) x = if f b ≤ f x then some x else some b from rfl] at hacc
      by_cases hle : f b ≤ f x
      · exact le_trans hle (hacc x (by rw [if_pos hle]))
      · exact hacc b (by rw [if_neg hle])

theorem maxByLast_mem {α : Type} (f : α → Int) (l : List α) (m : α)
    (h : maxByLast f l = some m) : m ∈ l := by
  rcases maxFold_mem f l none m h with hm | hm
  · exact hm
  · cases hm

theorem maxByLast_le {α : Type} (f : α → Int) (l : List α) (m : α)
    (h : maxByLast f l = some m) : ∀ x ∈ l, f x ≤ f m :=
  (maxFold_le f l none m h).1

/-! ## Fuel stabilization for `validate_move` -/

theorem simMove_turn (g : ChessGame) (s e : Nat × Nat) : (simMove g s e).turn = g.turn := by
  cases hp : pieceAt g.board s.1 s.2 <;> simp [simMove, hp]

theorem validateMoveBody_kic_congr (k1 k2 : ChessGame → PieceColor → Bool)
    (g : ChessGame) (s e : Nat × Nat)
    (h : k1 (simMove g s e) g.turn = k2 (simMove g s e) g.turn) :
    validateMoveBody k1 g s e = validateMoveBody k2 g s e := by
  unfold validateMoveBody
  rw [h]

/-- `validateMoveFuel` is independent of the fuel from 2 on: the inner
`is_king_in_check` calls short-circuit on the turn check, so the source's
mutual recursion has call-tree depth 2 and `validate_move = validateMoveFuel 2`
computes exactly the Rust function. -/
theorem validateMoveFuel_stable (n : Nat) (g : ChessGame) (s e : Nat × Nat) :
    validateMoveFuel (n + 2) g s e = validateMoveFuel 2 g s e := by
  show validateMoveBody (isKingInCheckWith (validateMoveFuel (n + 1))) g s e =
       validateMoveBody (isKingInCheckWith (validateMoveFuel 1)) g s e
  apply validateMoveBody_kic_congr
  rw [isKingInCheck_on_turn_false n (simMove g s e) g.turn (simMove_turn g s e)]
  have h1 := isKingInCheck_on_turn_false 0 (simMove g s e) g.turn (simMove_turn g s e)
  simpa using h1.symm

/-! ## Concrete positions and FEN fixtures -/

/-- White king e1, white rook e2 pinned by a black rook on e8; black king a8.
White to move. -/
def pinPos : ChessGame :=
  { board := setSquare (setSquare (setSquare (setSquare
      (List.replicate 8 emptyRank) 7 4 (some ⟨PieceType.King, PieceColor.White, false⟩))
      6 4 (some ⟨PieceType.Rook, PieceColor.White, false⟩))
      0 4 (some ⟨PieceType.Rook, PieceColor.Black, false⟩))
      0 0 (some ⟨PieceType.King, PieceColor.Black, false⟩)
    turn := PieceColor.White
    castling_rights := []
    en_passant_target := none
    halfmove_clock := 0
    fullmove_number := 1
    promotion_square := none }

/-- White king e1, white rook h1, no pieces between; black rook f8 attacks
f1; black king a8.  White to move, `K` castling right available. -/
def castlePos : ChessGame :=
  { board := setSquare (setSquare (setSquare (setSquare
      (List.replicate 8 emptyRank) 7 4 (some ⟨PieceType.King, PieceColor.White, false⟩))
      7 7 (some ⟨PieceType.Rook, PieceColor.White, false⟩))
      0 5 (some ⟨PieceType.Rook, PieceColor.Black, false⟩))
      0 0 (some ⟨PieceType.King, PieceColor.Black, false⟩)
    turn := PieceColor.White
    castling_rights := ['K']
    en_passant_target := none
    halfmove_clock := 0
    fullmove_number := 1
    promotion_square := none }

/-- The position after 1. e4 a6 2. e5 d5 (all four moves executed by the
embedded executor); the en-passant target is d6 = (2,3) and White may play
e5×d6. -/
def pos3 : ChessGame :=
  executeMove (executeMove (executeMove (executeMove standardGame
    (6, 4) (4, 4)) (1, 0) (2, 0)) (4, 4) (3, 4)) (1, 3) (3, 3)

/-- The position after 1. e4 e5, where White may play Ke1–e2. -/
def pos5 : ChessGame :=
  executeMove (executeMove standardGame (6, 4) (4, 4)) (1, 4) (3, 4)

/-- Lone kings at e1 / e8, White to move (witness position for C9). -/
def tinyG : ChessGame :=
  { board := setSquare (setSquare
      (List.replicate 8 emptyRank) 7 4 (some ⟨PieceType.King, PieceColor.White, false⟩))
      0 4 (some ⟨PieceType.King, PieceColor.Black, false⟩)
    turn := PieceColor.White
    castling_rights := []
    en_passant_target := none
    halfmove_clock := 0
    fullmove_number := 1
    promotion_square := none }

def openingFen : List Char :=
  "rnbqkbnr/pppppppp/8/8/8/8/PPPPPPPP/RNBQKBNR w KQkq - 0 1".toList

/-- Canonical rank-token lists for the standard opening placement. -/
def tBlackBack : List RankTok :=
  [RankTok.pc 'r', RankTok.pc 'n', RankTok.pc 'b', RankTok.pc 'q',
   RankTok.pc 'k', RankTok.pc 'b', RankTok.pc 'n', RankTok.pc 'r']

def tBlackPawns : List RankTok := List.replicate 8 (RankTok.pc 'p')

def tWhitePawns : List RankTok := List.replicate 8 (RankTok.pc 'P')

def tWhiteBack : List RankTok :=
  [RankTok.pc 'R', RankTok.pc 'N', RankTok.pc 'B', RankTok.pc 'Q',
   RankTok.pc 'K', RankTok.pc 'B', RankTok.pc 'N', RankTok.pc 'R']

def tEmptyRank : List RankTok := [RankTok.gap 8]

def tssOpening : List (List RankTok) :=
  [tBlackBack, tBlackPawns, tEmptyRank, tEmptyRank, tEmptyRank, tEmptyRank,
   tWhitePawns, tWhiteBack]

/-- The opening FEN with fullmove number `2^32` (valid by the spec's grammar,
rejected by the `u32` parse of the source). -/
def overflowFen : List Char :=
  "rnbqkbnr/pppppppp/8/8/8/8/PPPPPPPP/RNBQKBNR w KQkq - 0 4294967296".toList

/-- The FEN whose fourth rank group is `9` (rank sum 9 > 8). -/
def rankOverflowFen : List Char := "8/8/8/9/8/8/8/8 w - - 0 1".toList

/-- The game parsed from the standard opening FEN. -/
def openingParsed : ChessGame :=
  match from_fen openingFen with
  | ParseOutcome.ok g => g
  | _ => standardGame

/-! ## Claim theorems -/

/-- C1: the claim "every move accepted by the validator leaves the mover's
own king not attacked" fails on the code.  In `pinPos` the validator accepts
moving the pinned rook e2–a2 (the self-check simulation inside
`validate_move` is dead code: `is_king_in_check` calls `validate_move` on
opposing pieces, which all fail the turn check), yet executing the move
leaves the white king on e1 attacked by the black rook on e8 — both by the
pseudo-legal attack oracle and by `is_king_in_check` itself. -/
theorem C1_self_check_violated :
    validate_move pinPos (6, 4) (6, 0) = true ∧
    is_square_attacked (executeMove pinPos (6, 4) (6, 0)) (7, 4) PieceColor.White = true ∧
    is_king_in_check (executeMove pinPos (6, 4) (6, 0)) PieceColor.White = true := by
  decide

/-- C2: the claim "castling is accepted only if king's home, passing and
destination squares are unattacked" fails on the code: with the white king
on e1, a white rook on h1, no pieces between, and a black rook on f8
attacking f1, `validate_move` accepts king-side castling e1–g1 even though
the passing square f1 is attacked — `validate_king_castling` performs no
attacked-square check at all. -/
theorem C2_castling_attack_violated :
    validate_move castlePos (7, 4) (7, 6) = true ∧
    is_square_attacked castlePos (7, 5) PieceColor.White = true := by
  decide

/-- C3: the claim "executing a legal en-passant capture removes the opposing
pawn at (from.row, to.col)" fails on the code.  After 1. e4 a6 2. e5 d5 the
en-passant target is d6 = (2,3) and e5×d6 is accepted; executing it places
the white pawn on d6 and clears the target, but the black pawn on d5 = (3,3)
is **not** removed: the executor overwrites `en_passant_target` before
comparing the destination against it, so the removal branch never fires. -/
theorem C3_en_passant_no_capture :
    pos3.en_passant_target = some (2, 3) ∧
    pieceAt pos3.board 3 4 = some ⟨PieceType.Pawn, PieceColor.White, true⟩ ∧
    pieceAt pos3.board 3 3 = some ⟨PieceType.Pawn, PieceColor.Black, true⟩ ∧
    validate_move pos3 (3, 4) (2, 3) = true ∧
    pieceAt (executeMove pos3 (3, 4) (2, 3)).board 2 3 =
      some ⟨PieceType.Pawn, PieceColor.White, true⟩ ∧
    (executeMove pos3 (3, 4) (2, 3)).en_passant_target = none ∧
    (executeMove pos3 (3, 4) (2, 3)).halfmove_clock = 0 ∧
    pieceAt (executeMove pos3 (3, 4) (2, 3)).board 3 3 =
      some ⟨PieceType.Pawn, PieceColor.Black, true⟩ := by
  decide

/-- C4: the claim "the halfmove clock increments on every non-pawn,
non-capturing move" fails on the code: the capture test reads the
destination square **after** the mover has been placed there, so it is
always occupied and the clock resets to 0 on every move.  Nb1–a3 from the
opening (no pawn, no capture, predecessor clock 0, and again with
predecessor clock 5) yields clock 0 instead of 1 (resp. 6). -/
theorem C4_halfmove_clock_always_reset :
    validate_move standardGame (7, 1) (5, 0) = true ∧
    (executeMove standardGame (7, 1) (5, 0)).halfmove_clock = 0 ∧
    (executeMove { standardGame with halfmove_clock := 5 } (7, 1) (5, 0)).halfmove_clock
      = 0 := by
  decide

/-- C5: the claim "executing a king move removes that color's castling
flags" fails on the code: `update_castling_rights` is invoked after the
mover has been taken off its start square, reads `None` there, and leaves
the rights untouched.  After 1. e4 e5, executing Ke1–e2 leaves
`castling_rights` equal to "KQkq". -/
theorem C5_castling_rights_not_updated :
    validate_move pos5 (7, 4) (6, 4) = true ∧
    (executeMove pos5 (7, 4) (6, 4)).castling_rights = ['K', 'Q', 'k', 'q'] := by
  decide

/-- C6 counterexample: the claim quantifies over every valid FEN; with the
fullmove counter `4294967296 = 2^32` the string below is grammatically valid
(the spec's counters are unbounded "non-negative decimal integers"), but the
source's `u32` parse rejects it, so `emit (parse s) = s` fails: parsing does
not even succeed. -/
theorem C6_overflow_cex :
    ValidFEN false overflowFen ∧
    from_fen overflowFen = ParseOutcome.err FenErr.badFullmove := by
  constructor
  · refine ⟨tssOpening, ['w'], ['K', 'Q', 'k', 'q'], ['-'], 0, 4294967296,
      ?_, ?_, ?_, ?_, ?_, ?_, ?_⟩
    · decide
    · decide
    · exact Or.inl rfl
    · exact Or.inr ⟨by decide, by decide⟩
    · exact Or.inl rfl
    · intro h
      exact absurd h (by decide)
    · decide
  · decide

/-- C6 (amended): `emit (parse s) = s` for every valid six-field FEN string
whose halfmove and fullmove counters fit in `u32`. -/
theorem C6_fen_round_trip (s : List Char) (h : ValidFEN true s) :
    ∃ g, from_fen s = ParseOutcome.ok g ∧ to_fen g = s :=
  valid_fen_round_trip s h

/-- C6 witness: the round trip instantiated at the standard opening FEN. -/
theorem C6_fen_round_trip_witness :
    ∃ g, from_fen openingFen = ParseOutcome.ok g ∧ to_fen g = openingFen :=
  C6_fen_round_trip openingFen
    ⟨tssOpening, ['w'], ['K', 'Q', 'k', 'q'], ['-'], 0, 1,
      by decide, by decide, Or.inl rfl,
      Or.inr ⟨by decide, by decide⟩, Or.inl rfl,
      fun _ => ⟨by decide, by decide⟩, by decide⟩

/-- C7: the claim "parsing returns a descriptive error (rather than
succeeding or crashing) exactly on the listed malformed inputs" fails on
the code in two ways: a rank whose square count exceeds 8 (fourth group `9`)
makes the parser write out of bounds — an index panic, not an error — and a
FEN with a seventh field is accepted although its field count is wrong. -/
theorem C7_parse_panics_and_extra_fields :
    from_fen rankOverflowFen = ParseOutcome.panicked ∧
    (from_fen (openingFen ++ [' ', 'x'])).isOk = true := by
  decide

/-- C8: the claim "the position obtained from the standard opening FEN has
exactly 20 legal moves for White" fails on the code: `from_fen` stores the
rank groups in reversed row order relative to `new_standard`'s convention,
mirroring the board vertically, and the resulting position has only the 4
knight moves.  The constructively built standard position — the position the
FEN denotes — does have exactly 20. -/
theorem C8_opening_move_count :
    from_fen openingFen = ParseOutcome.ok openingParsed ∧
    (generate_valid_moves openingParsed PieceColor.White).length = 4 ∧
    (generate_valid_moves standardGame PieceColor.White).length = 20 := by
  decide

/-- C9: the heuristic opponent returns `none` iff the side to move has no
legal move, and any returned move is a generated legal move of maximal
static score (`score_move` = capture value + mover material + king penalty +
development bonus + positional value, with material pawn 1, knight/bishop 3,
rook 5, queen 9, king 1000). -/
theorem C9_ai_argmax (g : ChessGame) :
    (choose_ai_move g = none ↔ generate_valid_moves g g.turn = []) ∧
    ∀ m, choose_ai_move g = some m →
      m ∈ generate_valid_moves g g.turn ∧
      ∀ m' ∈ generate_valid_moves g g.turn,
        score_move g m'.1 m'.2 ≤ score_move g m.1 m.2 := by
  refine ⟨maxByLast_none_iff _ _, ?_⟩
  intro m hm
  exact ⟨maxByLast_mem _ _ m hm, fun m' hm' => maxByLast_le _ _ m hm m' hm'⟩

/-- C9 witness: on the two-kings position the chooser returns Ke1–f1, which
is a generated legal move of maximal score. -/
theorem C9_ai_argmax_witness :
    ((7, 4), (7, 5)) ∈ generate_valid_moves tinyG tinyG.turn ∧
    ∀ m' ∈ generate_valid_moves tinyG tinyG.turn,
      score_move tinyG m'.1 m'.2 ≤ score_move tinyG (7, 4) (7, 5) :=
  (C9_ai_argmax tinyG).2 ((7, 4), (7, 5)) (by decide)

/-- C10: converting an on-board coordinate to its algebraic name and parsing
it back is the identity (row 0 is rank 8). -/
theorem C10_algebraic_round_trip (r c : Nat) (hr : r < 8) (hc : c < 8) :
    algebraic_to_square (square_to_algebraic r c) = some (r, c) :=
  alg_square_round r hr c hc

/-- C10 witness: the round trip at (0, 7), i.e. square h8. -/
theorem C10_algebraic_round_trip_witness :
    0 < 8 ∧ 7 < 8 ∧ algebraic_to_square (square_to_algebraic 0 7) = some (0, 7) :=
  ⟨by decide, by decide, C10_algebraic_round_trip 0 7 (by decide) (by decide)⟩

end Chess
